import Mathlib

/-!
Verification of the git-vendored dependency-vendoring package manager
against its natural-language specification.

The implementation scripts of this repository (templates/install,
templates/check, validate, remove) are not present in the source tree;
only their test suites are.  Every definition below is therefore
modelled from the specification's description of the corresponding
component, and cross-checked against the behaviour pinned by the tests.
-/

namespace GitVendored

/-! ## String utilities shared by the components -/

/-- Splits a character list on the path separator. -/
def splitOnSlash : List Char → List (List Char)
  | [] => [[]]
  | c :: rest =>
    if c = '/' then [] :: splitOnSlash rest
    else
      match splitOnSlash rest with
      | [] => [[c]]
      | seg :: segs => (c :: seg) :: segs

/-- Splits a path into its segments. -/
def splitSegs (s : String) : List (List Char) := splitOnSlash s.data

/-- Boolean string prefix test (`p` is a leading piece of `s`). -/
def strIsPrefixOf (p s : String) : Bool := p.data.isPrefixOf s.data

/-! ## ProtectionEngine (pre-commit gate)

Modelled from the spec: the `templates/check` script is missing from the
source tree.  §4.5: `matches_any_pattern(path, patterns)` is an
exact-string match, or glob where a single star matches within one path
segment and a double star matches across segments;
`get_protected_files(vendor, descriptor)` returns the manifest file list
plus the manifest's own on-disk artifacts when a manifest exists, else
the descriptor's protected glob patterns; `check_vendor` skips when the
current branch starts with that vendor's own install branch, otherwise a
changed path is a violation iff protected and not allowed. -/

/-- Glob match of one pattern segment against one path segment:
a star matches any run of characters within the segment (tried by
matching the rest of the pattern against every suffix). -/
def segMatch : List Char → List Char → Bool
  | [], s => s.isEmpty
  | p :: ps, s =>
    if p = '*' then s.tails.any (fun t => segMatch ps t)
    else
      match s with
      | [] => false
      | c :: cs => p = c && segMatch ps cs

/-- Glob match of a segmented pattern against a segmented path: a
double-star segment matches any (possibly empty) run of whole segments. -/
def globMatch : List (List Char) → List (List Char) → Bool
  | [], segs => segs.isEmpty
  | p :: ps, segs =>
    if p = ['*', '*'] then segs.tails.any (fun t => globMatch ps t)
    else
      match segs with
      | [] => false
      | s :: rest => segMatch p s && globMatch ps rest

/-- Exact-string match, or glob match (§4.5). -/
def matches_any_pattern (path : String) (patterns : List String) : Bool :=
  patterns.any (fun pat => pat == path || globMatch (splitSegs pat) (splitSegs path))

/-- The vendor descriptor owned by the registry (§3).  The glob-pattern
field is called `protected` in the source; that word is a Lean keyword,
so the field is named `protectedPats` here. -/
structure VendorDescriptor where
  repo : String
  install_branch : String
  protectedPats : List String
  allowed : List String
  privateRepo : Bool
  automerge : Bool
  dogfood : Bool
deriving DecidableEq

/-- On-disk path of a vendor's manifest file list. -/
def manifestFilesPath (name : String) : String :=
  ".vendored/manifests/" ++ name ++ ".files"

/-- On-disk path of a vendor's manifest version marker. -/
def manifestVersionPath (name : String) : String :=
  ".vendored/manifests/" ++ name ++ ".version"

/-- Protected set of a vendor: manifest file list plus the manifest's own
artifacts when a manifest exists (literal paths), else the descriptor's
glob patterns (§4.5).  The manifest read from disk is passed explicitly. -/
def get_protected_files (name : String) (d : VendorDescriptor)
    (manifest : Option (List String)) : List String :=
  match manifest with
  | some files => files ++ [manifestFilesPath name, manifestVersionPath name]
  | none => d.protectedPats

/-- Pre-commit gate for one vendor (§4.5): empty when the current branch
is a prefix match on that vendor's own install branch, otherwise the
changed paths that are protected and not matched by an allowed pattern. -/
def check_vendor (name : String) (d : VendorDescriptor)
    (manifest : Option (List String)) (changedPaths : List String)
    (currentBranch : String) : List String :=
  if strIsPrefixOf d.install_branch currentBranch then []
  else
    changedPaths.filter (fun p =>
      matches_any_pattern p (get_protected_files name d manifest) &&
        !matches_any_pattern p d.allowed)

/-! ## Errors and the Source Host interface

Modelled from the spec: the install/validate/remove scripts are missing
from the source tree.  §6 abstracts the external code host as a Source
Host interface; §7 fixes exit code 1 on any failure and 0 on success. -/

/-- Failure taxonomy (§7); every error exits the process with code 1.
`OutOfFuel` is a model artifact bounding recursion depth. -/
inductive VendorError where
  | VersionUnresolvable
  | CircularDependency
  | AlreadyRegistered
  | OutOfFuel
  | NoManifest
  | UnknownVendor
deriving DecidableEq

deriving instance DecidableEq for Except

/-- A network query made against the Source Host. -/
inductive HostCall where
  | latestRelease (repo : String)
  | fileAtRef (repo path ref : String)
deriving DecidableEq

/-- The Source Host interface (§6), restricted to the queries the
version resolver needs. -/
structure SourceHost where
  latest_release_tag : String → Option String
  file_at_ref : String → String → String → Option String
  default_ref : String

/-! ## VersionResolver

Modelled from the spec (§4.1): an explicit non-"latest" ref is returned
verbatim with no network call; for "latest", query the latest release
tag and strip a leading "v"; if no release exists, fall back to the
trimmed contents of a VERSION file at the default ref; if neither
yields a value, fail with `VersionUnresolvable`. -/

/-- Strips one leading letter v, as applied to release tags. -/
def stripLeadingV (s : String) : String :=
  match s.data with
  | 'v' :: rest => String.mk rest
  | _ => s

/-- Removes leading and trailing whitespace. -/
def trimStr (s : String) : String :=
  String.mk (((s.data.dropWhile Char.isWhitespace).reverse.dropWhile
    Char.isWhitespace).reverse)

/-- Version resolution (§4.1), also returning the list of Source Host
queries that were made. -/
def resolve_version (host : SourceHost) (repoSpec ref : String) :
    Except VendorError String × List HostCall :=
  if ref = "latest" then
    match host.latest_release_tag repoSpec with
    | some tag => (.ok (stripLeadingV tag), [.latestRelease repoSpec])
    | none =>
      match host.file_at_ref repoSpec "VERSION" host.default_ref with
      | some content =>
          (.ok (trimStr content),
           [.latestRelease repoSpec, .fileAtRef repoSpec "VERSION" host.default_ref])
      | none =>
          (.error .VersionUnresolvable,
           [.latestRelease repoSpec, .fileAtRef repoSpec "VERSION" host.default_ref])
  else (.ok ref, [])

/-- Process exit code of a standalone version resolution (§6, §7). -/
def resolve_version_exit (host : SourceHost) (repoSpec ref : String) : Nat :=
  match (resolve_version host repoSpec ref).1 with
  | .ok _ => 0
  | .error _ => 1

/-! ## ManifestStore and install_existing_vendor

Modelled from the spec (§4.2, §4.3): `get_current_version` prefers the
manifest version, then a legacy version marker, then "none"; the update
path for an existing vendor skips all work when the current version
equals the resolved target and no force flag is given, and otherwise
re-runs the download-and-install step. -/

/-- Current installed version (§4.2): manifest version takes priority,
then the legacy marker, else "none" for a fresh install. -/
def get_current_version (manifestVersion legacyVersion : Option String) : String :=
  match manifestVersion with
  | some v => v
  | none =>
    match legacyVersion with
    | some v => v
    | none => "none"

/-- Result record returned by the installer (§4.3). -/
structure InstallResult where
  vendor : String
  old_version : String
  new_version : String
  changed : Bool
deriving DecidableEq

/-- Update path for an already-registered vendor (§4.3).  The repository
state is an abstract type `σ` and the effect of the remote install
script is the function `runScript`; the returned Boolean records
whether that script was executed.  Returning the input state unchanged
together with a `false` flag is the model of "zero writes, no script
execution". -/
def install_existing_vendor {σ : Type} (host : SourceHost) (runScript : σ → σ)
    (name : String) (d : VendorDescriptor) (ref : String) (force : Bool)
    (manifestVersion legacyVersion : Option String) (st : σ) :
    Except VendorError (InstallResult × σ × Bool) :=
  let current := get_current_version manifestVersion legacyVersion
  match (resolve_version host d.repo ref).1 with
  | .error e => .error e
  | .ok target =>
    if current = target ∧ force = false then
      .ok (⟨name, current, target, false⟩, st, false)
    else
      .ok (⟨name, current, target, true⟩, runScript st, true)

/-! ## Remover

Modelled from the spec (§4.8): `get_files_to_remove` requires a
manifest, absence is a hard `NoManifest` error with no glob-pattern
fallback; the removal flow deletes the listed files plus the manifest
artifacts plus the registry entry only after that computation
succeeds, so a `NoManifest` failure leaves everything untouched. -/

/-- Working-tree and control-directory state seen by the remove script. -/
structure RemState where
  files : List String
  vendors : List String
  manifestFiles : List (String × List String)
  manifestVersions : List (String × String)
deriving DecidableEq

/-- Reads a vendor's persisted manifest file list, if present. -/
def read_manifest (st : RemState) (vendor : String) : Option (List String) :=
  st.manifestFiles.lookup vendor

/-- Files to delete (§4.8): the manifest file list plus the manifest's
own artifacts; a missing manifest is a hard error. -/
def get_files_to_remove (st : RemState) (vendor : String) :
    Except VendorError (List String) :=
  match read_manifest st vendor with
  | none => .error .NoManifest
  | some fs => .ok (fs ++ [manifestFilesPath vendor, manifestVersionPath vendor])

/-- Removal flow (§4.8): resolve the vendor, compute the files to
remove, then delete them together with the manifest artifacts and the
registry entry. -/
def remove_vendor (st : RemState) (vendor : String) : Except VendorError RemState :=
  if vendor ∈ st.vendors then
    match get_files_to_remove st vendor with
    | .error e => .error e
    | .ok fs =>
        .ok ⟨st.files.filter (fun f => !fs.contains f),
             st.vendors.erase vendor,
             st.manifestFiles.filter (fun kv => kv.1 != vendor),
             st.manifestVersions.filter (fun kv => kv.1 != vendor)⟩
  else .error .UnknownVendor

/-- Whole remove invocation: exit code and resulting on-disk state; a
failure exits 1 and leaves the state exactly as it was. -/
def run_remove (st : RemState) (vendor : String) : Nat × RemState :=
  match remove_vendor st vendor with
  | .ok st2 => (0, st2)
  | .error _ => (1, st)

/-! ## Validator

Modelled from the spec (§4.7): checks 1-3 are fail-fast; checks 4-8
always all run and are reported together even if one of them fails or
the script download failed; overall pass requires every check that ran
to have passed.  External observations (release queries, the dry-run
execution) are abstracted as fields of an environment record. -/

/-- Outcomes of the external observations the validator makes. -/
structure ValidateEnv where
  repoExists : Bool
  installShExists : Bool
  resolvedVersion : Option String
  script : Option String
  syntaxOK : Bool
  dryrunExitZero : Bool
  manifestWritten : Bool
  manifestFilesExist : Bool

/-- Interpreter lines accepted by check 4. -/
def acceptedShebangs : List String := ["#!/bin/bash", "#!/usr/bin/env bash"]

/-- First line of a script. -/
def firstLine (s : String) : String :=
  String.mk (s.data.takeWhile (fun c => c ≠ '\n'))

/-- Check 4: the downloaded script begins with an accepted interpreter
shebang; a failed download fails the check. -/
def check_valid_shebang : Option String → Bool
  | none => false
  | some content => acceptedShebangs.contains (firstLine content)

/-- Check 5: static syntax check; a failed download fails the check. -/
def check_syntax_valid (env : ValidateEnv) : Bool :=
  match env.script with
  | none => false
  | some _ => env.syntaxOK

/-- Checks 6-8: the dry-run execution, the manifest emission and the
existence on disk of every manifest-listed path; all three fail when
the script could not be downloaded. -/
def run_dryrun_install (env : ValidateEnv) : List (Nat × Bool) :=
  match env.script with
  | none => [(6, false), (7, false), (8, false)]
  | some _ =>
      [(6, env.dryrunExitZero), (7, env.manifestWritten),
       (8, env.manifestWritten && env.manifestFilesExist)]

/-- The validate pipeline (§4.7): exit code together with the list of
(check number, passed) records that were run and reported. -/
def validate (env : ValidateEnv) : Nat × List (Nat × Bool) :=
  if env.repoExists = false then (1, [(1, false)])
  else if env.installShExists = false then (1, [(1, true), (2, false)])
  else
    match env.resolvedVersion with
    | none => (1, [(1, true), (2, true), (3, false)])
    | some _ =>
      let checks := [(1, true), (2, true), (3, true),
                     (4, check_valid_shebang env.script),
                     (5, check_syntax_valid env)] ++ run_dryrun_install env
      (if checks.all (fun c => c.2) then 0 else 1, checks)

/-! ## ConfigMigrator: monolithic registry to per-vendor files

Modelled from the spec (§4.6): `_should_migrate_config` (spelled
`should_migrate_config` here) is true iff the monolithic registry has a
non-empty vendor map and no per-vendor files exist yet; the migration
writes one file per vendor and removes the monolithic vendor map, and
runs only when that precondition holds.  Descriptors and consumer keys
are opaque strings in this model. -/

/-- Control-directory state relevant to config migration. -/
structure ConfigFS where
  monoVendors : List (String × String)
  monoOther : List (String × String)
  perVendor : List (String × String)
deriving DecidableEq

/-- True iff the monolithic vendor map is non-empty and no per-vendor
files exist yet (§4.6, source name with a leading underscore). -/
def should_migrate_config (st : ConfigFS) : Bool :=
  !st.monoVendors.isEmpty && st.perVendor.isEmpty

/-- Config migration as invoked at operation start: guarded by
`should_migrate_config`, it writes one per-vendor file per registry
entry and removes the monolithic vendor map. -/
def migrate_config (st : ConfigFS) : ConfigFS :=
  if should_migrate_config st then ⟨[], st.monoOther, st.monoVendors⟩ else st

/-! ## ConfigMigrator: legacy project configs

Modelled from the spec (§4.6): `migrate_project_configs` merges the
legacy file's keys into the per-vendor file without ever overwriting
the reserved descriptor key, deletes the legacy file, and deletes its
parent directory only if that directory becomes fully empty.  One
vendor's file set is modelled; values are opaque strings. -/

/-- Keyed JSON-object entries, in file order. -/
abbrev KVs := List (String × String)

/-- Sets key `k` to value `v`, replacing an existing binding in place
or appending a new one. -/
def setKV : KVs → String → String → KVs
  | [], k, v => [(k, v)]
  | (k2, v2) :: rest, k, v =>
      if k2 = k then (k, v) :: rest else (k2, v2) :: setKV rest k v

/-- Merge of a legacy project config into a per-vendor file: every
legacy key is copied over except the reserved `_vendor` descriptor key,
which is never overwritten. -/
def mergeProjectConfig (pv legacy : KVs) : KVs :=
  legacy.foldl
    (fun acc kv => if kv.1 = "_vendor" then acc else setKV acc kv.1 kv.2) pv

/-- One vendor's files as seen by project-config migration: the
per-vendor config file, the optional legacy config file inside the
vendor's dot-directory, and the names of the other entries of that
directory. -/
structure VendorDirState where
  perFile : KVs
  legacy : Option KVs
  others : List String
deriving DecidableEq

/-- Project-config migration for one vendor (§4.6): merges and deletes
the legacy file; the returned Boolean records whether the legacy
file's parent directory was removed, which happens only when nothing
else is left in it. -/
def migrate_project_config_for (st : VendorDirState) : VendorDirState × Bool :=
  match st.legacy with
  | none => (st, false)
  | some lg =>
      (⟨mergeProjectConfig st.perFile lg, none, st.others⟩, st.others.isEmpty)

/-! ## load_config of the three scripts

Modelled from the spec (§6, §9) and pinned by the test suites: one
loader normalizes the per-vendor and monolithic encodings; when neither
exists, the check script treats the situation as a clean no-op success
(exit 0, nothing to check) while the install and remove scripts fail
(exit 1). -/

/-- The physical configuration inputs: per-vendor files and the
optional monolithic registry file. -/
structure ConfigDir where
  perVendor : List (String × String)
  monolithic : Option (List (String × String))
deriving DecidableEq

/-- Loader shared shape: per-vendor files take priority, the monolithic
file is the fallback, and the result is absent when neither exists. -/
def load_config_core (cd : ConfigDir) : Option (List (String × String)) :=
  if cd.perVendor.isEmpty then cd.monolithic else some cd.perVendor

/-- The check script's `load_config`: a missing configuration exits
cleanly with code 0. -/
def check_load_config (cd : ConfigDir) : Except Nat (List (String × String)) :=
  match load_config_core cd with
  | some reg => .ok reg
  | none => .error 0

/-- The install script's `load_config`: a missing configuration is a
failure, exit code 1. -/
def install_load_config (cd : ConfigDir) : Except Nat (List (String × String)) :=
  match load_config_core cd with
  | some reg => .ok reg
  | none => .error 1

/-- The remove script's `load_config`: a missing configuration is a
failure, exit code 1. -/
def remove_load_config (cd : ConfigDir) : Except Nat (List (String × String)) :=
  match load_config_core cd with
  | some reg => .ok reg
  | none => .error 1

/-! ## Installer: install_new_vendor and cycle detection

Modelled from the spec (§4.3, §4.4, §9): `install_new_vendor` rejects a
repo identity already registered (`AlreadyRegistered`) and a repo
identity already in the transient installing-set (`CircularDependency`,
also the self-dependency case); it then executes the script, which
registers the vendor, and resolves the declared dependencies of the
side-channel dependency manifest with the repo added to the
installing-set, installing each dependency that is missing from the
registry snapshot.  Repos are identified by their canonical repo spec;
`deps` maps a repo spec to the repo specs its dependency manifest
declares.  A fuel parameter bounds the recursion depth of the model;
exhausting it is the artificial `OutOfFuel` error. -/

/-- Dependency resolution in `install` mode (§4.4): runs the given
installation step on each missing declared dependency in order,
threading the installing-set through for transitive cycle protection;
the first failure aborts. -/
def run_dep_installs
    (step : String → List String → List String → Except VendorError (List String)) :
    List String → List String → List String → Except VendorError (List String)
  | [], _, _ => .ok []
  | d :: ds, reg, iset =>
    match step d reg iset with
    | .error e => .error e
    | .ok newly1 =>
      match run_dep_installs step ds reg iset with
      | .error e => .error e
      | .ok newly2 => .ok (newly1 ++ newly2)

/-- New-vendor installation (§4.3).  `reg` is the registry snapshot (a
list of registered repo identities), `iset` the transient
installing-set; on success the answer lists the newly registered repo
identities. -/
def install_new_vendor (deps : String → List String) :
    Nat → String → List String → List String → Except VendorError (List String)
  | 0, _, _, _ => .error .OutOfFuel
  | n + 1, repo, reg, iset =>
    if repo ∈ reg then .error .AlreadyRegistered
    else if repo ∈ iset then .error .CircularDependency
    else
      match run_dep_installs (fun d r i => install_new_vendor deps n d r i)
          ((deps repo).filter (fun d => d ∉ reg)) reg (repo :: iset) with
      | .error e => .error e
      | .ok newly => .ok (repo :: newly)

/-- Process exit code of one top-level `install` invocation (§6, §7). -/
def install_exit_code (deps : String → List String) (fuel : Nat)
    (repo : String) (reg iset : List String) : Nat :=
  match install_new_vendor deps fuel repo reg iset with
  | .ok _ => 0
  | .error _ => 1

/-- A non-empty dependency-manifest path from `r` that stays outside
the registry snapshot `reg` and ends at a member of `stop`.  A cycle
through `r` is such a path with `r ∈ stop`. -/
inductive ReachesBlocked (deps : String → List String) (reg : List String) :
    String → List String → Prop
  | here {r d : String} {stop : List String} :
      d ∈ deps r → d ∉ reg → d ∈ stop → ReachesBlocked deps reg r stop
  | there {r d : String} {stop : List String} :
      d ∈ deps r → d ∉ reg → ReachesBlocked deps reg d stop →
      ReachesBlocked deps reg r stop

/-! ## DependencyGraph: topological_sort

Modelled from the spec (§4.4): edges are vendor → declared dependency,
built from the persisted `.deps` lists; an edge to a name that is not
itself an installed vendor is dropped; vendors are processed smallest
name first among those whose installed dependencies are all already
placed, which in particular orders vendors with no edges
alphabetically; a cycle among installed vendors is a fatal
configuration error (exit 1). -/

/-- The declared dependencies of `v` that are themselves installed
vendors; edges to any other name are dropped. -/
def installedDeps (vendors : List String) (deps : String → List String)
    (v : String) : List String :=
  (deps v).filter (fun d => d ∈ vendors)

/-- One Kahn step: true when every dependency of `v` along kept edges
has already been placed. -/
def topoReady (adj : String → List String) (acc : List String) (v : String) : Bool :=
  (adj v).all (fun d => d ∈ acc)

/-- Byte-order comparison of character lists, the model of the
alphabetical order used for determinism. -/
def lexLe : List Char → List Char → Bool
  | [], _ => true
  | _ :: _, [] => false
  | a :: as, b :: bs =>
    if a.toNat = b.toNat then lexLe as bs else decide (a.toNat < b.toNat)

/-- Name comparison: `a` sorts no later than `b`. -/
def strLe (a b : String) : Bool := lexLe a.data b.data

/-- Strict name comparison: `a` sorts strictly earlier than `b`. -/
def strLt (a b : String) : Bool := !strLe b a

/-- Inserts a name into an already sorted list of names. -/
def orderedInsertStr (x : String) : List String → List String
  | [] => [x]
  | y :: ys => if strLe x y then x :: y :: ys else y :: orderedInsertStr x ys

/-- Insertion sort of vendor names. -/
def sortNames : List String → List String
  | [] => []
  | x :: xs => orderedInsertStr x (sortNames xs)

/-- Kahn's algorithm over a name-sorted worklist: repeatedly place the
first (alphabetically smallest) vendor whose kept dependencies are all
placed; failure to empty the worklist is a cycle. -/
def topoAux (adj : String → List String) :
    Nat → List String → List String → Option (List String)
  | 0, remaining, acc =>
    match remaining with
    | [] => some acc.reverse
    | _ :: _ => none
  | n + 1, remaining, acc =>
    match remaining with
    | [] => some acc.reverse
    | _ :: _ =>
      match remaining.find? (topoReady adj acc) with
      | none => none
      | some v => topoAux adj n (remaining.erase v) (v :: acc)

/-- Topological sort of the installed vendors (§4.4): `none` models the
fatal configuration error raised on a dependency cycle. -/
def topological_sort (vendors : List String) (deps : String → List String) :
    Option (List String) :=
  topoAux (installedDeps vendors deps) vendors.length (sortNames vendors) []

/-- Process exit code of the bulk "update all" ordering step (§6, §7). -/
def topo_exit_code (vendors : List String) (deps : String → List String) : Nat :=
  match topological_sort vendors deps with
  | some _ => 0
  | none => 1

/-- `a` occurs in `l` and `b` occurs again later than that occurrence. -/
def appearsBefore (l : List String) (a b : String) : Prop :=
  ∃ l1 l2, l = l1 ++ a :: l2 ∧ b ∈ l2

/-- A non-empty path along kept dependency edges. -/
inductive DepsPath (adj : String → List String) : String → String → Prop
  | single {v d : String} : d ∈ adj v → DepsPath adj v d
  | cons {v d w : String} : d ∈ adj v → DepsPath adj d w → DepsPath adj v w

/-- The placement invariant of Kahn's algorithm: every vendor on the
stack has all of its kept dependencies placed deeper in the stack. -/
def accClosed (adj : String → List String) : List String → Prop
  | [] => True
  | v :: acc => (∀ d ∈ adj v, d ∈ acc) ∧ accClosed adj acc

/-! ## Concrete fixtures, drawn from the test suites -/

/-- The git-vendored descriptor of the sample configuration. -/
def gvDesc : VendorDescriptor :=
  ⟨"mangimangi/git-vendored", "chore/install-git-vendored",
   [".vendored/**", ".github/workflows/install-vendored.yml",
    ".github/workflows/check-vendor.yml"],
   [".vendored/config.json", ".vendored/.version"], false, false, true⟩

/-- A vendor descriptor with a manifest-protected tool. -/
def myToolDesc : VendorDescriptor :=
  ⟨"owner/my-tool", "chore/install-my-tool", [".my-tool/**"],
   [".my-tool/config.json"], false, false, false⟩

/-- The plain sample vendor of the install tests. -/
def toolDesc : VendorDescriptor :=
  ⟨"owner/tool", "chore/install-tool", [".tool/**"],
   [".tool/config.json", ".tool/.version"], false, false, false⟩

/-- A host with no releases and a VERSION file, the §8 scenario. -/
def toolHost : SourceHost := ⟨fun _ => none, fun _ _ _ => some "1.0.0\n", "main"⟩

/-- A host whose latest release is tagged v1.2.3. -/
def relHost : SourceHost := ⟨fun _ => some "v1.2.3", fun _ _ _ => none, "main"⟩

/-- A host with neither releases nor a VERSION file. -/
def noneHost : SourceHost := ⟨fun _ => none, fun _ _ _ => none, "main"⟩

/-- Validation environment of a repository that does not exist. -/
def envNoRepo : ValidateEnv := ⟨false, true, none, none, false, false, false, false⟩

/-- Validation environment whose dry-run install fails. -/
def envFailDry : ValidateEnv :=
  ⟨true, true, some "1.0.0", some "#!/bin/bash\nexit 1\n", true, false, false, false⟩

/-- A monolithic configuration awaiting migration. -/
def cfgMono : ConfigFS := ⟨[("tool", "dtool")], [("dependency_mode", "skip")], []⟩

/-- One vendor's files with a legacy config that tries to smuggle a
reserved key, inside a dot-directory that also holds data files and
source-control metadata. -/
def toolDir : VendorDirState :=
  ⟨[("_vendor", "vdesc")], some [("_vendor", "evil"), ("setting", "ok")],
   ["issues.jsonl", ".gitattributes"]⟩

/-- Dependency manifests forming a two-cycle. -/
def depsAB : String → List String :=
  fun r => if r = "owner/a" then ["owner/b"]
    else if r = "owner/b" then ["owner/a"] else []

/-- Dependency manifest naming the repo being installed. -/
def depsSelf : String → List String :=
  fun r => if r = "owner/tool" then ["owner/tool"] else []

/-- Persisted `.deps` lists of the diamond example. -/
def depsDiamond : String → List String :=
  fun r => if r = "a" then ["b", "c"]
    else if r = "b" then ["d"] else if r = "c" then ["d"] else []

/-- Persisted `.deps` lists of a two-cycle between installed vendors. -/
def depsCycle2 : String → List String :=
  fun r => if r = "a" then ["b"] else if r = "b" then ["a"] else []

/-! ## Theorems -/

/-- C1: `check_vendor` returns the empty violation list whenever the
current branch is a prefix match on that vendor's own install branch
(the bypass condition consults only that vendor's own descriptor, so
another vendor's install branch grants nothing); otherwise a changed
path is a violation iff it is in the protected set and not matched by
any allowed exception pattern, where the protected set is exactly the
manifest file list plus the manifest's own on-disk artifacts when a
manifest exists — so a path absent from the manifest and its artifacts
is never a violation — and is the descriptor's protected glob patterns
when no manifest exists. -/
theorem check_vendor_spec :
    (∀ (name : String) (d : VendorDescriptor) (m : Option (List String))
        (changed : List String) (branch : String),
        strIsPrefixOf d.install_branch branch = true →
        check_vendor name d m changed branch = [])
  ∧ (∀ (name : String) (d : VendorDescriptor) (files changed : List String)
        (branch p : String),
        strIsPrefixOf d.install_branch branch = false →
        (p ∈ check_vendor name d (some files) changed branch ↔
          p ∈ changed ∧
          matches_any_pattern p
              (files ++ [manifestFilesPath name, manifestVersionPath name]) = true ∧
          matches_any_pattern p d.allowed = false))
  ∧ (∀ (name : String) (d : VendorDescriptor) (changed : List String)
        (branch p : String),
        strIsPrefixOf d.install_branch branch = false →
        (p ∈ check_vendor name d none changed branch ↔
          p ∈ changed ∧ matches_any_pattern p d.protectedPats = true ∧
          matches_any_pattern p d.allowed = false)) := by
  refine ⟨?_, ?_, ?_⟩
  · intro name d m changed branch h
    simp [check_vendor, h]
  · intro name d files changed branch p h
    simp [check_vendor, h, get_protected_files, List.mem_filter,
      Bool.and_eq_true, Bool.not_eq_true', and_assoc]
  · intro name d changed branch p h
    simp [check_vendor, h, get_protected_files, List.mem_filter,
      Bool.and_eq_true, Bool.not_eq_true', and_assoc]

/-- Witness for C1 on the fixture data: the own-install-branch bypass,
a manifest-protected violation, and a glob-fallback violation on a
foreign vendor's install branch. -/
theorem check_vendor_spec_witness :
    check_vendor "git-vendored" gvDesc none [".vendored/install", ".vendored/check"]
        "chore/install-git-vendored-v1.0" = [] ∧
    ".my-tool/script.sh" ∈ check_vendor "my-tool" myToolDesc
        (some [".my-tool/script.sh", ".my-tool/config.json"])
        [".my-tool/config.json", ".my-tool/script.sh"] "feature/something" ∧
    ".vendored/install" ∈ check_vendor "git-vendored" gvDesc none
        [".vendored/install", "README.md"] "chore/install-pearls-v2.0" :=
  ⟨check_vendor_spec.1 "git-vendored" gvDesc none _ _ (by decide),
   (check_vendor_spec.2.1 "my-tool" myToolDesc _ _ _ _ (by decide)).mpr
     ⟨by decide, by decide, by decide⟩,
   (check_vendor_spec.2.2 "git-vendored" gvDesc _ _ _ (by decide)).mpr
     ⟨by decide, by decide, by decide⟩⟩

/-- C4: removing a vendor that has no manifest fails with the hard
`NoManifest` error and exit code 1, with no glob-pattern fallback, and
the failure is atomic: the run returns the initial state unchanged, so
no file is deleted and the registry entry is untouched. -/
theorem remove_requires_manifest (st : RemState) (v : String)
    (hreg : v ∈ st.vendors) (hman : read_manifest st v = none) :
    remove_vendor st v = .error .NoManifest ∧ run_remove st v = (1, st) := by
  have h1 : remove_vendor st v = .error .NoManifest := by
    simp [remove_vendor, hreg, get_files_to_remove, hman]
  exact ⟨h1, by simp [run_remove, h1]⟩

/-- Witness for C4: a registered vendor with a file on disk but no
manifest is not removed and the state survives unchanged. -/
theorem remove_requires_manifest_witness :
    remove_vendor ⟨[".tool/script.sh"], ["tool"], [], []⟩ "tool" =
        .error .NoManifest ∧
    run_remove ⟨[".tool/script.sh"], ["tool"], [], []⟩ "tool" =
        (1, ⟨[".tool/script.sh"], ["tool"], [], []⟩) :=
  remove_requires_manifest ⟨[".tool/script.sh"], ["tool"], [], []⟩ "tool"
    (by decide) (by decide)

/-- C5: when the current version equals the resolved target version,
`install_existing_vendor` without force returns the state unchanged
(zero writes), does not execute the install script, and reports
`changed : false` with that version as the old version; with force it
always re-executes the download-and-install step and reports
`changed : true`. -/
theorem install_existing_vendor_spec :
    (∀ (σ : Type) (host : SourceHost) (runScript : σ → σ) (name : String)
        (d : VendorDescriptor) (ref : String) (mv lv : Option String)
        (st : σ) (v : String),
        (resolve_version host d.repo ref).1 = .ok v →
        get_current_version mv lv = v →
        install_existing_vendor host runScript name d ref false mv lv st =
          .ok (⟨name, v, v, false⟩, st, false))
  ∧ (∀ (σ : Type) (host : SourceHost) (runScript : σ → σ) (name : String)
        (d : VendorDescriptor) (ref : String) (mv lv : Option String)
        (st : σ) (v : String),
        (resolve_version host d.repo ref).1 = .ok v →
        install_existing_vendor host runScript name d ref true mv lv st =
          .ok (⟨name, get_current_version mv lv, v, true⟩, runScript st, true)) := by
  constructor
  · intro σ host runScript name d ref mv lv st v hres hcur
    simp [install_existing_vendor, hres, hcur]
  · intro σ host runScript name d ref mv lv st v hres
    simp [install_existing_vendor, hres]

/-- Witness for C5 on the §8 scenario: no release tags, VERSION file
"1.0.0\n", manifest version "1.0.0"; updating to "latest" is a no-op
without force and re-executes with force. -/
theorem install_existing_vendor_spec_witness :
    install_existing_vendor toolHost Nat.succ "tool" toolDesc "latest" false
        (some "1.0.0") none 0 =
      .ok (⟨"tool", "1.0.0", "1.0.0", false⟩, 0, false) ∧
    install_existing_vendor toolHost Nat.succ "tool" toolDesc "latest" true
        (some "1.0.0") none 0 =
      .ok (⟨"tool", "1.0.0", "1.0.0", true⟩, 1, true) :=
  ⟨install_existing_vendor_spec.1 Nat toolHost Nat.succ "tool" toolDesc "latest"
      (some "1.0.0") none 0 "1.0.0" (by decide) (by decide),
   install_existing_vendor_spec.2 Nat toolHost Nat.succ "tool" toolDesc "latest"
      (some "1.0.0") none 0 "1.0.0" (by decide)⟩

/-- C6: `resolve_version` returns an explicit non-"latest" ref verbatim
with no Source Host call; for "latest" it first queries the latest
release tag and strips a leading "v" without ever consulting the
VERSION file, falls back to the trimmed contents of a VERSION file at
the default ref when no release exists, and fails with exit code 1
when neither source yields a value. -/
theorem resolve_version_spec :
    (∀ (host : SourceHost) (repoSpec ref : String), ref ≠ "latest" →
        resolve_version host repoSpec ref = (.ok ref, []))
  ∧ (∀ (host : SourceHost) (repoSpec tag : String),
        host.latest_release_tag repoSpec = some tag →
        (resolve_version host repoSpec "latest").1 = .ok (stripLeadingV tag) ∧
        ∀ r p rf, HostCall.fileAtRef r p rf ∉ (resolve_version host repoSpec "latest").2)
  ∧ (∀ (host : SourceHost) (repoSpec content : String),
        host.latest_release_tag repoSpec = none →
        host.file_at_ref repoSpec "VERSION" host.default_ref = some content →
        (resolve_version host repoSpec "latest").1 = .ok (trimStr content))
  ∧ (∀ (host : SourceHost) (repoSpec : String),
        host.latest_release_tag repoSpec = none →
        host.file_at_ref repoSpec "VERSION" host.default_ref = none →
        (resolve_version host repoSpec "latest").1 = .error .VersionUnresolvable ∧
        resolve_version_exit host repoSpec "latest" = 1) := by
  refine ⟨?_, ?_, ?_, ?_⟩
  · intro host repoSpec ref h
    simp [resolve_version, h]
  · intro host repoSpec tag h
    simp [resolve_version, h]
  · intro host repoSpec content h1 h2
    simp [resolve_version, h1, h2]
  · intro host repoSpec h1 h2
    simp [resolve_version, resolve_version_exit, h1, h2]

/-- Witness for C6: a pinned ref is verbatim, a v-tagged release is
stripped, the VERSION fallback is trimmed, and the empty host fails
with exit code 1. -/
theorem resolve_version_spec_witness :
    resolve_version relHost "owner/tool" "1.5.0" = (.ok "1.5.0", []) ∧
    (resolve_version relHost "owner/tool" "latest").1 = .ok "1.2.3" ∧
    (resolve_version toolHost "owner/tool" "latest").1 = .ok "1.0.0" ∧
    resolve_version_exit noneHost "owner/tool" "latest" = 1 :=
  ⟨resolve_version_spec.1 relHost "owner/tool" "1.5.0" (by decide),
   ((resolve_version_spec.2.1 relHost "owner/tool" "v1.2.3" rfl).1).trans (by decide),
   (resolve_version_spec.2.2.1 toolHost "owner/tool" "1.0.0\n" rfl rfl).trans (by decide),
   (resolve_version_spec.2.2.2 noneHost "owner/tool" rfl rfl).2⟩

/-- C7: the validate pipeline stops immediately on the first failure
among checks 1-3, but once those pass it always runs and reports all of
checks 4-8 together — also when one of them fails or the script
download failed — and in every case the exit code is 0 exactly when
every check that ran passed, and 1 otherwise. -/
theorem validate_pipeline_spec :
    (∀ env : ValidateEnv, env.repoExists = false →
        validate env = (1, [(1, false)]))
  ∧ (∀ env : ValidateEnv, env.repoExists = true → env.installShExists = false →
        validate env = (1, [(1, true), (2, false)]))
  ∧ (∀ env : ValidateEnv, env.repoExists = true → env.installShExists = true →
        env.resolvedVersion = none →
        validate env = (1, [(1, true), (2, true), (3, false)]))
  ∧ (∀ (env : ValidateEnv) (v : String), env.repoExists = true →
        env.installShExists = true → env.resolvedVersion = some v →
        (validate env).2.map Prod.fst = [1, 2, 3, 4, 5, 6, 7, 8])
  ∧ (∀ env : ValidateEnv,
        ((validate env).1 = 0 ↔ ∀ c ∈ (validate env).2, c.2 = true) ∧
        ((validate env).1 = 0 ∨ (validate env).1 = 1)) := by
  refine ⟨?_, ?_, ?_, ?_, ?_⟩
  · intro env h
    simp [validate, h]
  · intro env h1 h2
    simp [validate, h1, h2]
  · intro env h1 h2 h3
    simp [validate, h1, h2, h3]
  · intro env v h1 h2 h3
    simp only [validate, h1, h2, h3]
    cases hs : env.script <;>
      simp [run_dryrun_install, hs]
  · intro env
    have key : ∀ L : List (Nat × Bool),
        ((if L.all (fun c => c.2) then (0 : Nat) else 1) = 0 ↔
          ∀ c ∈ L, c.2 = true) ∧
        ((if L.all (fun c => c.2) then (0 : Nat) else 1) = 0 ∨
          (if L.all (fun c => c.2) then (0 : Nat) else 1) = 1) := by
      intro L
      cases hall : L.all (fun c => c.2) with
      | true =>
        simp only [hall, if_true]
        exact ⟨⟨fun _ => List.all_eq_true.mp hall, fun _ => trivial⟩, Or.inl trivial⟩
      | false =>
        simp only [hall, Bool.false_eq_true, if_false]
        refine ⟨⟨fun h => absurd h one_ne_zero, fun hforall => ?_⟩, Or.inr trivial⟩
        have hcontra := List.all_eq_true.mpr hforall
        rw [hall] at hcontra
        cases hcontra
    by_cases h1 : env.repoExists = true
    · by_cases h2 : env.installShExists = true
      · cases h3 : env.resolvedVersion with
        | none => simp [validate, h1, h2, h3]
        | some v =>
          have hv : validate env =
              (if (([(1, true), (2, true), (3, true),
                     (4, check_valid_shebang env.script),
                     (5, check_syntax_valid env)] ++ run_dryrun_install env).all
                   (fun c => c.2)) then 0 else 1,
               [(1, true), (2, true), (3, true),
                (4, check_valid_shebang env.script),
                (5, check_syntax_valid env)] ++ run_dryrun_install env) := by
            simp [validate, h1, h2, h3]
          rw [hv]
          exact key _
      · have h2' : env.installShExists = false := by
          cases hb : env.installShExists
          · rfl
          · exact absurd hb h2
        simp [validate, h1, h2']
    · have h1' : env.repoExists = false := by
        cases hb : env.repoExists
        · rfl
        · exact absurd hb h1
      simp [validate, h1']

/-- Witness for C7: a missing repository stops after check 1; a
failing dry run still reports all eight checks and the exit code iff
holds for it. -/
theorem validate_pipeline_spec_witness :
    validate envNoRepo = (1, [(1, false)]) ∧
    (validate envFailDry).2.map Prod.fst = [1, 2, 3, 4, 5, 6, 7, 8] ∧
    ((validate envFailDry).1 = 0 ↔ ∀ c ∈ (validate envFailDry).2, c.2 = true) :=
  ⟨validate_pipeline_spec.1 envNoRepo rfl,
   validate_pipeline_spec.2.2.2.1 envFailDry "1.0.0" rfl rfl rfl,
   (validate_pipeline_spec.2.2.2.2 envFailDry).1⟩

/-- C8: config migration from the monolithic registry to per-vendor
files is idempotent — running it twice yields on-disk state identical
to running it once — because `_should_migrate_config` is true iff the
monolithic registry has a non-empty vendor map and no per-vendor files
exist yet, and that precondition becomes false after one run. -/
theorem migrate_config_idempotent :
    (∀ st : ConfigFS, should_migrate_config st = true ↔
        st.monoVendors ≠ [] ∧ st.perVendor = [])
  ∧ (∀ st : ConfigFS, should_migrate_config st = true →
        should_migrate_config (migrate_config st) = false)
  ∧ (∀ st : ConfigFS, migrate_config (migrate_config st) = migrate_config st) := by
  have hiff : ∀ st : ConfigFS, should_migrate_config st = true ↔
      st.monoVendors ≠ [] ∧ st.perVendor = [] := by
    intro st
    simp [should_migrate_config, List.isEmpty_iff, Bool.and_eq_true]
  have hpost : ∀ st : ConfigFS, should_migrate_config st = true →
      should_migrate_config (migrate_config st) = false := by
    intro st h
    obtain ⟨hmono, _⟩ := (hiff st).mp h
    have : migrate_config st = ⟨[], st.monoOther, st.monoVendors⟩ := by
      simp [migrate_config, h]
    rw [this]
    simp [should_migrate_config, List.isEmpty_iff, hmono]
  have houter : ∀ y : ConfigFS, should_migrate_config y = false →
      migrate_config y = y := by
    intro y hy
    simp [migrate_config, hy]
  refine ⟨hiff, hpost, ?_⟩
  intro st
  cases h : should_migrate_config st with
  | false =>
    have hid : migrate_config st = st := houter st h
    rw [hid, hid]
  | true =>
    exact houter _ (hpost st h)

/-- Witness for C8 on a monolithic single-vendor configuration. -/
theorem migrate_config_idempotent_witness :
    should_migrate_config (migrate_config cfgMono) = false ∧
    migrate_config (migrate_config cfgMono) = migrate_config cfgMono ∧
    (should_migrate_config cfgMono = true ↔
      cfgMono.monoVendors ≠ [] ∧ cfgMono.perVendor = []) :=
  ⟨migrate_config_idempotent.2.1 cfgMono (by decide),
   migrate_config_idempotent.2.2 cfgMono,
   migrate_config_idempotent.1 cfgMono⟩

/-- Looking up the key just set yields the new value. -/
theorem lookup_setKV_self (m : KVs) (k v : String) :
    (setKV m k v).lookup k = some v := by
  induction m with
  | nil => simp [setKV, List.lookup]
  | cons kv2 rest ih =>
    obtain ⟨k2, v2⟩ := kv2
    by_cases h : k2 = k
    · simp [setKV, h, List.lookup]
    · have hne : (k == k2) = false := beq_eq_false_iff_ne.mpr (Ne.symm h)
      simp [setKV, h, List.lookup, hne, ih]

/-- Setting one key leaves every other key's lookup unchanged. -/
theorem lookup_setKV_ne (m : KVs) (k k2 v : String) (h : k2 ≠ k) :
    (setKV m k v).lookup k2 = m.lookup k2 := by
  have hne : (k2 == k) = false := beq_eq_false_iff_ne.mpr h
  induction m with
  | nil => simp [setKV, List.lookup, hne]
  | cons kv2 rest ih =>
    obtain ⟨k3, v3⟩ := kv2
    by_cases h3 : k3 = k
    · subst h3
      simp [setKV, List.lookup, hne]
    · simp only [setKV, h3, if_false]
      by_cases h2 : k2 = k3
      · subst h2
        simp [List.lookup]
      · have hne2 : (k2 == k3) = false := beq_eq_false_iff_ne.mpr h2
        simp [List.lookup, hne2, ih]

/-- Unfolding of the legacy-key merge over the first legacy entry. -/
theorem mergeProjectConfig_cons (pv : KVs) (kv : String × String) (rest : KVs) :
    mergeProjectConfig pv (kv :: rest) =
      mergeProjectConfig
        (if kv.1 = "_vendor" then pv else setKV pv kv.1 kv.2) rest := by
  simp only [mergeProjectConfig, List.foldl_cons]

/-- The merge never touches the reserved descriptor key. -/
theorem merge_lookup_vendor (legacy : KVs) : ∀ pv : KVs,
    (mergeProjectConfig pv legacy).lookup "_vendor" = pv.lookup "_vendor" := by
  induction legacy with
  | nil => intro pv; rfl
  | cons kv rest ih =>
    intro pv
    rw [mergeProjectConfig_cons]
    by_cases h : kv.1 = "_vendor"
    · simp only [h, if_true]
      exact ih pv
    · simp only [h, if_false]
      rw [ih (setKV pv kv.1 kv.2)]
      exact lookup_setKV_ne pv kv.1 "_vendor" kv.2 (fun e => h e.symm)

/-- The merge leaves keys that the legacy file does not mention alone. -/
theorem merge_lookup_absent (legacy : KVs) (k : String)
    (h : k ∉ legacy.map Prod.fst) : ∀ pv : KVs,
    (mergeProjectConfig pv legacy).lookup k = pv.lookup k := by
  induction legacy with
  | nil => intro pv; rfl
  | cons kv rest ih =>
    have hk : k ≠ kv.1 := by
      intro e
      exact h (by simp [e])
    have hrest : k ∉ rest.map Prod.fst := by
      intro hmem
      exact h (by simp [hmem])
    intro pv
    rw [mergeProjectConfig_cons]
    by_cases hr : kv.1 = "_vendor"
    · simp only [hr, if_true]
      exact ih hrest pv
    · simp only [hr, if_false]
      rw [ih hrest (setKV pv kv.1 kv.2)]
      exact lookup_setKV_ne pv kv.1 k kv.2 hk

/-- Every non-reserved legacy key ends up in the merged file with the
legacy value. -/
theorem merge_lookup_mem (legacy : KVs) (k v : String)
    (hnd : (legacy.map Prod.fst).Nodup) (hmem : (k, v) ∈ legacy)
    (hk : k ≠ "_vendor") : ∀ pv : KVs,
    (mergeProjectConfig pv legacy).lookup k = some v := by
  induction legacy with
  | nil => cases hmem
  | cons kv rest ih =>
    have hnd2 : kv.1 ∉ rest.map Prod.fst ∧ (rest.map Prod.fst).Nodup := by
      rw [List.map_cons] at hnd
      exact List.nodup_cons.mp hnd
    obtain ⟨hhead, htail⟩ := hnd2
    intro pv
    rw [mergeProjectConfig_cons]
    rcases List.mem_cons.mp hmem with heq | hmem2
    · have hk1 : kv.1 = k := by rw [← heq]
      have hv1 : kv.2 = v := by rw [← heq]
      have habsent : k ∉ rest.map Prod.fst := hk1 ▸ hhead
      rw [if_neg (by rw [hk1]; exact hk)]
      rw [merge_lookup_absent rest k habsent]
      rw [hk1, hv1]
      exact lookup_setKV_self pv k v
    · by_cases hr : kv.1 = "_vendor"
      · simp only [hr, if_true]
        exact ih htail hmem2 pv
      · simp only [hr, if_false]
        exact ih htail hmem2 (setKV pv kv.1 kv.2)

/-- C9: for a vendor with a legacy project config file,
`migrate_project_configs` merges the legacy file's keys into the
per-vendor config file without ever overwriting the reserved `_vendor`
descriptor key (even when the legacy file itself contains a `_vendor`
key), deletes the legacy file, and deletes the legacy file's parent
directory exactly when that directory becomes fully empty — a
directory still holding data files or source-control metadata files is
preserved. -/
theorem migrate_project_configs_spec (st : VendorDirState) (lg : KVs)
    (hlg : st.legacy = some lg) (hnd : (lg.map Prod.fst).Nodup) :
    ((migrate_project_config_for st).1.perFile.lookup "_vendor" =
        st.perFile.lookup "_vendor")
  ∧ (∀ k v, (k, v) ∈ lg → k ≠ "_vendor" →
        (migrate_project_config_for st).1.perFile.lookup k = some v)
  ∧ (∀ k, k ∉ lg.map Prod.fst →
        (migrate_project_config_for st).1.perFile.lookup k =
          st.perFile.lookup k)
  ∧ (migrate_project_config_for st).1.legacy = none
  ∧ ((migrate_project_config_for st).2 = true ↔ st.others = []) := by
  have hstep : migrate_project_config_for st =
      (⟨mergeProjectConfig st.perFile lg, none, st.others⟩, st.others.isEmpty) := by
    simp [migrate_project_config_for, hlg]
  refine ⟨?_, ?_, ?_, ?_, ?_⟩
  · rw [hstep]
    exact merge_lookup_vendor lg st.perFile
  · intro k v hmem hk
    rw [hstep]
    exact merge_lookup_mem lg k v hnd hmem hk st.perFile
  · intro k habs
    rw [hstep]
    exact merge_lookup_absent lg k habs st.perFile
  · rw [hstep]
  · rw [hstep]
    simp [List.isEmpty_iff]

/-- Witness for C9 on the fixture vendor directory: the reserved key
survives a hostile legacy `_vendor` entry, the legacy setting is
merged, the legacy file is gone, and the data-holding directory is not
removed. -/
theorem migrate_project_configs_spec_witness :
    (migrate_project_config_for toolDir).1.perFile.lookup "_vendor" =
        some "vdesc" ∧
    (migrate_project_config_for toolDir).1.perFile.lookup "setting" =
        some "ok" ∧
    (migrate_project_config_for toolDir).1.legacy = none ∧
    ((migrate_project_config_for toolDir).2 = true ↔
      toolDir.others = []) :=
  ⟨((migrate_project_configs_spec toolDir [("_vendor", "evil"), ("setting", "ok")]
      rfl (by decide)).1).trans (by decide),
   (migrate_project_configs_spec toolDir [("_vendor", "evil"), ("setting", "ok")]
      rfl (by decide)).2.1 "setting" "ok" (by decide) (by decide),
   (migrate_project_configs_spec toolDir [("_vendor", "evil"), ("setting", "ok")]
      rfl (by decide)).2.2.2.1,
   (migrate_project_configs_spec toolDir [("_vendor", "evil"), ("setting", "ok")]
      rfl (by decide)).2.2.2.2⟩

/-- C10: when the registry configuration is absent (no monolithic file
and no per-vendor files), the check script's `load_config` exits with
code 0 as a clean no-op success, whereas the install and remove
scripts' `load_config` exit with code 1 for the same condition. -/
theorem load_config_missing_exit_codes (cd : ConfigDir)
    (h : load_config_core cd = none) :
    check_load_config cd = .error 0 ∧ install_load_config cd = .error 1 ∧
    remove_load_config cd = .error 1 := by
  simp [check_load_config, install_load_config, remove_load_config, h]

/-- Witness for C10: the empty configuration directory. -/
theorem load_config_missing_exit_codes_witness :
    check_load_config ⟨[], none⟩ = .error 0 ∧
    install_load_config ⟨[], none⟩ = .error 1 ∧
    remove_load_config ⟨[], none⟩ = .error 1 :=
  load_config_missing_exit_codes ⟨[], none⟩ (by decide)

/-- If some listed dependency can never be installed, the whole
dependency pass can never succeed. -/
theorem run_dep_installs_bad
    (step : String → List String → List String → Except VendorError (List String))
    (d : String) (reg iset : List String)
    (hbad : ∀ out, step d reg iset ≠ .ok out) :
    ∀ ds : List String, d ∈ ds →
    ∀ out, run_dep_installs step ds reg iset ≠ .ok out := by
  intro ds
  induction ds with
  | nil => intro h; cases h
  | cons a as ih =>
    intro hmem out hok
    rcases List.mem_cons.mp hmem with rfl | hmem2
    · simp only [run_dep_installs] at hok
      cases hstep : step d reg iset with
      | error e => rw [hstep] at hok; exact Except.noConfusion hok
      | ok w => exact hbad w hstep
    · simp only [run_dep_installs] at hok
      cases hstep : step a reg iset with
      | error e => rw [hstep] at hok; exact Except.noConfusion hok
      | ok w =>
        rw [hstep] at hok
        cases hrest : run_dep_installs step as reg iset with
        | error e => rw [hrest] at hok; exact Except.noConfusion hok
        | ok w2 => exact ih hmem2 w2 hrest

/-- Enlarging the target set preserves a blocked-reachability path. -/
theorem ReachesBlocked.mono {deps : String → List String} {reg : List String}
    {r : String} {stop stop' : List String}
    (h : ReachesBlocked deps reg r stop) (hsub : ∀ x ∈ stop, x ∈ stop') :
    ReachesBlocked deps reg r stop' := by
  induction h with
  | here h1 h2 h3 => exact .here h1 h2 (hsub _ h3)
  | there h1 h2 _ ih => exact .there h1 h2 (ih hsub)

/-- Core cycle lemma: when the dependency manifests contain a path from
the repo back into the active installing-set (or to the repo itself),
no amount of fuel lets the installation succeed. -/
theorem install_never_ok_of_path (deps : String → List String) (reg : List String) :
    ∀ {r : String} {stop : List String}, ReachesBlocked deps reg r stop →
    ∀ iset : List String, (∀ x ∈ stop, x ∈ r :: iset) → r ∉ reg →
    ∀ (n : Nat) (out : List String),
      install_new_vendor deps n r reg iset ≠ .ok out := by
  intro r stop h
  induction h with
  | @here r d stop hd hdreg hdstop =>
    intro iset hsub hrreg n out hok
    match n with
    | 0 => simp [install_new_vendor] at hok
    | n + 1 =>
      simp only [install_new_vendor] at hok
      rw [if_neg hrreg] at hok
      by_cases hri : r ∈ iset
      · rw [if_pos hri] at hok
        exact Except.noConfusion hok
      · rw [if_neg hri] at hok
        have hbad : ∀ out2,
            install_new_vendor deps n d reg (r :: iset) ≠ .ok out2 := by
          intro out2 hok2
          have hdin : d ∈ r :: iset := hsub d hdstop
          match n with
          | 0 => simp [install_new_vendor] at hok2
          | m + 1 =>
            simp only [install_new_vendor] at hok2
            rw [if_neg hdreg, if_pos hdin] at hok2
            exact Except.noConfusion hok2
        have hdm : d ∈ (deps r).filter (fun x => x ∉ reg) :=
          List.mem_filter.mpr ⟨hd, decide_eq_true hdreg⟩
        have hnever := run_dep_installs_bad _ d reg (r :: iset) hbad _ hdm
        cases hrun : run_dep_installs (fun d r i => install_new_vendor deps n d r i)
            ((deps r).filter (fun x => x ∉ reg)) reg (r :: iset) with
        | error e => rw [hrun] at hok; exact Except.noConfusion hok
        | ok w => exact hnever w hrun
  | @there r d stop hd hdreg _ ih =>
    intro iset hsub hrreg n out hok
    match n with
    | 0 => simp [install_new_vendor] at hok
    | n + 1 =>
      simp only [install_new_vendor] at hok
      rw [if_neg hrreg] at hok
      by_cases hri : r ∈ iset
      · rw [if_pos hri] at hok
        exact Except.noConfusion hok
      · rw [if_neg hri] at hok
        have hbad : ∀ out2,
            install_new_vendor deps n d reg (r :: iset) ≠ .ok out2 :=
          fun out2 =>
            ih (r :: iset) (fun x hx => List.mem_cons_of_mem d (hsub x hx))
              hdreg n out2
        have hdm : d ∈ (deps r).filter (fun x => x ∉ reg) :=
          List.mem_filter.mpr ⟨hd, decide_eq_true hdreg⟩
        have hnever := run_dep_installs_bad _ d reg (r :: iset) hbad _ hdm
        cases hrun : run_dep_installs (fun d r i => install_new_vendor deps n d r i)
            ((deps r).filter (fun x => x ∉ reg)) reg (r :: iset) with
        | error e => rw [hrun] at hok; exact Except.noConfusion hok
        | ok w => exact hnever w hrun

/-- C2: a repo spec already in the installing-set passed to
`install_new_vendor` is rejected as a circular dependency with exit
code 1; a repo whose own dependency manifest names the repo being
installed is rejected the same way; and whenever the manifests contain
a dependency path from the repo back into the active installing-set or
to itself — a cycle of any length — no install of the cyclic set
completes and the process exits with code 1. -/
theorem cycle_detection_spec :
    (∀ (deps : String → List String) (n : Nat) (repo : String)
        (reg iset : List String), repo ∈ iset → repo ∉ reg →
        install_new_vendor deps (n + 1) repo reg iset =
          .error .CircularDependency ∧
        install_exit_code deps (n + 1) repo reg iset = 1)
  ∧ (∀ (deps : String → List String) (n : Nat) (repo : String)
        (reg iset : List String),
        deps repo = [repo] → repo ∉ reg → repo ∉ iset →
        install_new_vendor deps (n + 2) repo reg iset =
          .error .CircularDependency)
  ∧ (∀ (deps : String → List String) (repo : String) (reg iset : List String),
        repo ∉ reg → ReachesBlocked deps reg repo (repo :: iset) →
        ∀ n : Nat,
          (∀ out, install_new_vendor deps n repo reg iset ≠ .ok out) ∧
          install_exit_code deps n repo reg iset = 1) := by
  refine ⟨?_, ?_, ?_⟩
  · intro deps n repo reg iset hmem hreg
    have h1 : install_new_vendor deps (n + 1) repo reg iset =
        .error .CircularDependency := by
      simp only [install_new_vendor]
      rw [if_neg hreg, if_pos hmem]
    exact ⟨h1, by simp [install_exit_code, h1]⟩
  · intro deps n repo reg iset hdeps hreg hmem
    have hstep : install_new_vendor deps (n + 1) repo reg (repo :: iset) =
        .error .CircularDependency := by
      simp only [install_new_vendor]
      rw [if_neg hreg, if_pos (List.mem_cons_self repo iset)]
    have hfilter : (deps repo).filter (fun x => x ∉ reg) = [repo] := by
      rw [hdeps]
      simp [hreg]
    have hrun : run_dep_installs
        (fun d r i => install_new_vendor deps (n + 1) d r i)
        ((deps repo).filter (fun x => x ∉ reg)) reg (repo :: iset) =
        .error .CircularDependency := by
      rw [hfilter]
      simp only [run_dep_installs]
      rw [hstep]
    have houter : install_new_vendor deps (n + 2) repo reg iset =
        (if repo ∈ reg then .error .AlreadyRegistered
         else if repo ∈ iset then .error .CircularDependency
         else
           match run_dep_installs
               (fun d r i => install_new_vendor deps (n + 1) d r i)
               ((deps repo).filter (fun x => x ∉ reg)) reg (repo :: iset) with
           | .error e => .error e
           | .ok newly => .ok (repo :: newly)) := rfl
    rw [houter, if_neg hreg, if_neg hmem, hrun]
  · intro deps repo reg iset hreg hpath n
    have hne := install_never_ok_of_path deps reg hpath iset (fun x hx => hx) hreg n
    refine ⟨hne, ?_⟩
    unfold install_exit_code
    cases hres : install_new_vendor deps n repo reg iset with
    | ok w => exact absurd hres (hne w)
    | error e => rfl

/-- Witness for C2: direct installing-set rejection, the self-dependency
manifest, and a two-repo dependency cycle that exits 1 at any fuel. -/
theorem cycle_detection_spec_witness :
    install_new_vendor depsAB 3 "owner/tool" [] ["owner/tool"] =
        .error .CircularDependency ∧
    install_new_vendor depsSelf 4 "owner/tool" [] [] =
        .error .CircularDependency ∧
    install_exit_code depsAB 6 "owner/a" [] [] = 1 := by
  refine ⟨(cycle_detection_spec.1 depsAB 2 "owner/tool" [] ["owner/tool"]
      (by decide) (by decide)).1,
    cycle_detection_spec.2.1 depsSelf 2 "owner/tool" [] []
      (by decide) (by decide) (by decide),
    (cycle_detection_spec.2.2 depsAB "owner/a" [] [] (by decide) ?_ 6).2⟩
  exact @ReachesBlocked.there depsAB [] "owner/a" "owner/b" ["owner/a"]
    (by decide) (by decide)
    (@ReachesBlocked.here depsAB [] "owner/b" "owner/a" ["owner/a"]
      (by decide) (by decide) (by decide))

/-- Name comparison is reflexive. -/
theorem lexLe_refl (a : List Char) : lexLe a a = true := by
  induction a with
  | nil => rfl
  | cons c cs ih => simp [lexLe, ih]

/-- Name comparison is total. -/
theorem lexLe_total (a b : List Char) : lexLe a b = true ∨ lexLe b a = true := by
  induction a generalizing b with
  | nil => exact Or.inl rfl
  | cons c cs ih =>
    cases b with
    | nil => exact Or.inr rfl
    | cons d ds =>
      by_cases h : c.toNat = d.toNat
      · rcases ih ds with h1 | h1
        · exact Or.inl (by simp [lexLe, h, h1])
        · exact Or.inr (by simp [lexLe, h.symm, h1])
      · rcases Nat.lt_or_ge c.toNat d.toNat with hlt | hge
        · exact Or.inl (by simp [lexLe, h, hlt])
        · have hne : ¬ d.toNat = c.toNat := fun e => h e.symm
          have hgt : d.toNat < c.toNat := Nat.lt_of_le_of_ne hge hne
          exact Or.inr (by simp [lexLe, hne, hgt])

/-- Name comparison is transitive. -/
theorem lexLe_trans {a b c : List Char} (h1 : lexLe a b = true)
    (h2 : lexLe b c = true) : lexLe a c = true := by
  induction a generalizing b c with
  | nil => rfl
  | cons x xs ih =>
    cases b with
    | nil => simp [lexLe] at h1
    | cons y ys =>
      cases c with
      | nil => simp [lexLe] at h2
      | cons z zs =>
        simp only [lexLe] at h1 h2 ⊢
        by_cases hxy : x.toNat = y.toNat
        · rw [if_pos hxy] at h1
          by_cases hyz : y.toNat = z.toNat
          · rw [if_pos hyz] at h2
            rw [if_pos (hxy.trans hyz)]
            exact ih h1 h2
          · rw [if_neg hyz] at h2
            have hy : y.toNat < z.toNat := of_decide_eq_true h2
            have hxz : x.toNat < z.toNat := by rw [hxy]; exact hy
            rw [if_neg (Nat.ne_of_lt hxz)]
            exact decide_eq_true hxz
        · rw [if_neg hxy] at h1
          have hx : x.toNat < y.toNat := of_decide_eq_true h1
          by_cases hyz : y.toNat = z.toNat
          · have hxz : x.toNat < z.toNat := by rw [← hyz]; exact hx
            rw [if_neg (Nat.ne_of_lt hxz)]
            exact decide_eq_true hxz
          · rw [if_neg hyz] at h2
            have hy : y.toNat < z.toNat := of_decide_eq_true h2
            have hxz : x.toNat < z.toNat := Nat.lt_trans hx hy
            rw [if_neg (Nat.ne_of_lt hxz)]
            exact decide_eq_true hxz

/-- Reflexivity, for whole names. -/
theorem strLe_refl (a : String) : strLe a a = true := lexLe_refl a.data

/-- Totality, for whole names. -/
theorem strLe_total (a b : String) : strLe a b = true ∨ strLe b a = true :=
  lexLe_total a.data b.data

/-- Transitivity, for whole names. -/
theorem strLe_trans {a b c : String} (h1 : strLe a b = true)
    (h2 : strLe b c = true) : strLe a c = true := lexLe_trans h1 h2

/-- Insertion only adds the inserted name. -/
theorem mem_orderedInsertStr {x y : String} : ∀ {l : List String},
    y ∈ orderedInsertStr x l ↔ y = x ∨ y ∈ l := by
  intro l
  induction l with
  | nil => simp [orderedInsertStr]
  | cons z zs ih =>
    simp only [orderedInsertStr]
    by_cases h : strLe x z = true
    · rw [if_pos h]
      simp [List.mem_cons]
    · rw [if_neg h]
      simp only [List.mem_cons, ih]
      tauto

/-- Inserting into a sorted worklist keeps it sorted. -/
theorem sorted_orderedInsertStr (x : String) :
    ∀ l : List String, List.Pairwise (fun a b => strLe a b = true) l →
    List.Pairwise (fun a b => strLe a b = true) (orderedInsertStr x l) := by
  intro l
  induction l with
  | nil => intro _; simp [orderedInsertStr]
  | cons y ys ih =>
    intro h
    obtain ⟨hy, hys⟩ := List.pairwise_cons.mp h
    simp only [orderedInsertStr]
    by_cases hxy : strLe x y = true
    · rw [if_pos hxy]
      refine List.pairwise_cons.mpr ⟨?_, h⟩
      intro b hb
      rcases List.mem_cons.mp hb with rfl | hb2
      · exact hxy
      · exact strLe_trans hxy (hy b hb2)
    · rw [if_neg hxy]
      refine List.pairwise_cons.mpr ⟨?_, ih hys⟩
      intro b hb
      rcases mem_orderedInsertStr.mp hb with rfl | hb2
      · rcases strLe_total b y with h1 | h1
        · exact absurd h1 hxy
        · exact h1
      · exact hy b hb2

/-- The worklist produced by `sortNames` is sorted. -/
theorem sorted_sortNames (l : List String) :
    List.Pairwise (fun a b => strLe a b = true) (sortNames l) := by
  induction l with
  | nil => exact List.Pairwise.nil
  | cons x xs ih => exact sorted_orderedInsertStr x (sortNames xs) ih

/-- Sorting the names permutes them. -/
theorem orderedInsertStr_perm (x : String) (l : List String) :
    (orderedInsertStr x l).Perm (x :: l) := by
  induction l with
  | nil => exact List.Perm.refl _
  | cons y ys ih =>
    simp only [orderedInsertStr]
    by_cases h : strLe x y = true
    · rw [if_pos h]
    · rw [if_neg h]
      exact (ih.cons y).trans (List.Perm.swap x y ys)

/-- `sortNames` permutes the vendor names. -/
theorem sortNames_perm (l : List String) : (sortNames l).Perm l := by
  induction l with
  | nil => exact List.Perm.refl _
  | cons x xs ih =>
    exact (orderedInsertStr_perm x (sortNames xs)).trans (ih.cons x)

/-- A successful Kahn run permutes the stack and the worklist into the
answer. -/
theorem topoAux_perm (adj : String → List String) :
    ∀ (n : Nat) (remaining acc out : List String),
    topoAux adj n remaining acc = some out → out.Perm (acc.reverse ++ remaining) := by
  intro n
  induction n with
  | zero =>
    intro remaining acc out h
    cases remaining with
    | nil =>
      simp only [topoAux] at h
      cases h
      rw [List.append_nil]
    | cons r rs =>
      simp only [topoAux] at h
      exact Option.noConfusion h
  | succ n ih =>
    intro remaining acc out h
    cases remaining with
    | nil =>
      simp only [topoAux] at h
      cases h
      rw [List.append_nil]
    | cons r rs =>
      simp only [topoAux] at h
      cases hf : (r :: rs).find? (topoReady adj acc) with
      | none => rw [hf] at h; exact Option.noConfusion h
      | some v =>
        rw [hf] at h
        have hperm := ih _ _ _ h
        have hv : v ∈ r :: rs := List.mem_of_find?_eq_some hf
        have h2 : (r :: rs).Perm (v :: (r :: rs).erase v) := List.perm_cons_erase hv
        have h3 : out.Perm (acc.reverse ++ (v :: (r :: rs).erase v)) := by
          have heq : (v :: acc).reverse ++ (r :: rs).erase v =
              acc.reverse ++ (v :: (r :: rs).erase v) := by
            simp [List.reverse_cons, List.append_assoc]
          rw [← heq]
          exact hperm
        exact h3.trans (List.Perm.append_left _ h2.symm)

/-- A successful Kahn run appends to the reversed stack exactly the
members of the worklist. -/
theorem topoAux_shape (adj : String → List String) :
    ∀ (n : Nat) (remaining acc out : List String),
    topoAux adj n remaining acc = some out →
    ∃ rest, out = acc.reverse ++ rest ∧ (∀ z ∈ rest, z ∈ remaining) ∧
      (∀ z ∈ remaining, z ∈ rest) := by
  intro n
  induction n with
  | zero =>
    intro remaining acc out h
    cases remaining with
    | nil =>
      simp only [topoAux] at h
      cases h
      exact ⟨[], by rw [List.append_nil], by simp, by simp⟩
    | cons r rs =>
      simp only [topoAux] at h
      exact Option.noConfusion h
  | succ n ih =>
    intro remaining acc out h
    cases remaining with
    | nil =>
      simp only [topoAux] at h
      cases h
      exact ⟨[], by rw [List.append_nil], by simp, by simp⟩
    | cons r rs =>
      simp only [topoAux] at h
      cases hf : (r :: rs).find? (topoReady adj acc) with
      | none => rw [hf] at h; exact Option.noConfusion h
      | some v =>
        rw [hf] at h
        obtain ⟨rest, hout, hsub, hall⟩ := ih _ _ _ h
        have hv : v ∈ r :: rs := List.mem_of_find?_eq_some hf
        refine ⟨v :: rest, ?_, ?_, ?_⟩
        · rw [hout]
          simp [List.reverse_cons, List.append_assoc]
        · intro z hz
          rcases List.mem_cons.mp hz with rfl | hz2
          · exact hv
          · exact List.mem_of_mem_erase (hsub z hz2)
        · intro z hz
          by_cases hzv : z = v
          · exact hzv ▸ List.mem_cons_self v rest
          · exact List.mem_cons_of_mem v
              (hall z ((List.mem_erase_of_ne hzv).mpr hz))

/-- A successful Kahn run produces a reversed stack in which every
placed vendor has its kept dependencies placed deeper. -/
theorem topoAux_accClosed (adj : String → List String) :
    ∀ (n : Nat) (remaining acc out : List String),
    accClosed adj acc → topoAux adj n remaining acc = some out →
    ∃ A, out = A.reverse ∧ accClosed adj A ∧
      (∀ z ∈ remaining, z ∈ A) ∧ (∀ z ∈ acc, z ∈ A) := by
  intro n
  induction n with
  | zero =>
    intro remaining acc out hacc h
    cases remaining with
    | nil =>
      simp only [topoAux] at h
      cases h
      exact ⟨acc, rfl, hacc, by simp, fun z hz => hz⟩
    | cons r rs =>
      simp only [topoAux] at h
      exact Option.noConfusion h
  | succ n ih =>
    intro remaining acc out hacc h
    cases remaining with
    | nil =>
      simp only [topoAux] at h
      cases h
      exact ⟨acc, rfl, hacc, by simp, fun z hz => hz⟩
    | cons r rs =>
      simp only [topoAux] at h
      cases hf : (r :: rs).find? (topoReady adj acc) with
      | none => rw [hf] at h; exact Option.noConfusion h
      | some v =>
        rw [hf] at h
        have hready0 : topoReady adj acc v = true := List.find?_some hf
        have hready : (adj v).all (fun d => decide (d ∈ acc)) = true := hready0
        have hdeps : ∀ d ∈ adj v, d ∈ acc := by
          intro d hd
          exact of_decide_eq_true (List.all_eq_true.mp hready d hd)
        have haccv : accClosed adj (v :: acc) := ⟨hdeps, hacc⟩
        obtain ⟨A, hout, hA, hrem, haccA⟩ := ih _ _ _ haccv h
        have hvA : v ∈ A := haccA v (List.mem_cons_self v acc)
        refine ⟨A, hout, hA, ?_, ?_⟩
        · intro z hz
          by_cases hzv : z = v
          · exact hzv ▸ hvA
          · exact hrem z ((List.mem_erase_of_ne hzv).mpr hz)
        · intro z hz
          exact haccA z (List.mem_cons_of_mem v hz)

/-- Within a closed stack, the kept dependencies of an element sit in
the part of the stack deeper than it. -/
theorem accClosed_decomp (adj : String → List String) :
    ∀ (A1 : List String) (b : String) (A2 : List String),
    accClosed adj (A1 ++ b :: A2) → ∀ d ∈ adj b, d ∈ A2 := by
  intro A1
  induction A1 with
  | nil => intro b A2 h d hd; exact h.1 d hd
  | cons a A1 ih => intro b A2 h d hd; exact ih b A2 h.2 d hd

/-- Reading a closed stack in placement order puts every kept
dependency before its dependent. -/
theorem appearsBefore_of_accClosed {adj : String → List String}
    {A : List String} (hA : accClosed adj A) {b : String} (hb : b ∈ A)
    {a : String} (ha : a ∈ adj b) : appearsBefore A.reverse a b := by
  obtain ⟨A1, A2, hsplit⟩ := List.append_of_mem hb
  subst hsplit
  have ha2 : a ∈ A2 := accClosed_decomp adj A1 b A2 hA a ha
  have ha2r : a ∈ A2.reverse := List.mem_reverse.mpr ha2
  obtain ⟨B1, B2, hsplit2⟩ := List.append_of_mem ha2r
  refine ⟨B1, B2 ++ b :: A1.reverse, ?_, ?_⟩
  · rw [List.reverse_append, List.reverse_cons, hsplit2]
    simp [List.append_assoc]
  · simp

/-- On a sorted worklist, whatever `find?` returns sorts no later than
any member satisfying the predicate. -/
theorem find?_respects_order {p : String → Bool} {u w : String} :
    ∀ {l : List String}, List.Pairwise (fun a b => strLe a b = true) l →
    u ∈ l → p u = true → l.find? p = some w → strLe w u = true := by
  intro l
  induction l with
  | nil => intro _ hu; cases hu
  | cons a t ih =>
    intro hs hu hpu hf
    obtain ⟨ha, ht⟩ := List.pairwise_cons.mp hs
    by_cases hpa : p a = true
    · rw [List.find?_cons_of_pos _ hpa] at hf
      have hwa : a = w := Option.some.inj hf
      subst hwa
      rcases List.mem_cons.mp hu with rfl | hu2
      · exact strLe_refl u
      · exact ha u hu2
    · rw [List.find?_cons_of_neg _ (by simp [hpa])] at hf
      have hu2 : u ∈ t := by
        rcases List.mem_cons.mp hu with rfl | h2
        · exact absurd hpu hpa
        · exact h2
      exact ih ht hu2 hpu hf

/-- An always-ready vendor that sorts strictly earlier than another
always-ready vendor is placed first. -/
theorem topoAux_first_pick {adj : String → List String} {u w : String}
    (hu_deps : adj u = []) (huw : strLe w u = false) :
    ∀ (n : Nat) (remaining acc out : List String),
    List.Pairwise (fun a b => strLe a b = true) remaining →
    u ∈ remaining → w ∈ remaining →
    topoAux adj n remaining acc = some out →
    appearsBefore out u w := by
  have hready : ∀ acc : List String, topoReady adj acc u = true := by
    intro acc
    simp [topoReady, hu_deps]
  have hwu : w ≠ u := by
    intro e
    rw [e, strLe_refl u] at huw
    exact Bool.noConfusion huw
  intro n
  induction n with
  | zero =>
    intro remaining acc out hs hu hw h
    cases remaining with
    | nil => cases hu
    | cons r rs =>
      simp only [topoAux] at h
      exact Option.noConfusion h
  | succ n ih =>
    intro remaining acc out hs hu hw h
    cases remaining with
    | nil => cases hu
    | cons r rs =>
      simp only [topoAux] at h
      cases hf : (r :: rs).find? (topoReady adj acc) with
      | none => rw [hf] at h; exact Option.noConfusion h
      | some v =>
        rw [hf] at h
        by_cases hvu : v = u
        · subst hvu
          obtain ⟨rest, hout, _, hall⟩ := topoAux_shape adj n _ _ _ h
          have hw2 : w ∈ (r :: rs).erase v := (List.mem_erase_of_ne hwu).mpr hw
          have hwrest : w ∈ rest := hall w hw2
          refine ⟨acc.reverse, rest, ?_, hwrest⟩
          rw [hout]
          simp [List.reverse_cons, List.append_assoc]
        · by_cases hvw : v = w
          · exfalso
            subst hvw
            have hwle := find?_respects_order hs hu (hready acc) hf
            rw [hwle] at huw
            exact Bool.noConfusion huw
          · have hs2 : List.Pairwise (fun a b => strLe a b = true)
                ((r :: rs).erase v) :=
              List.Pairwise.sublist (List.erase_sublist v (r :: rs)) hs
            exact ih _ _ _ hs2
              ((List.mem_erase_of_ne (fun e => hvu e.symm)).mpr hu)
              ((List.mem_erase_of_ne (fun e => hvw e.symm)).mpr hw) h

/-- Extending a kept-edge path by one edge. -/
theorem DepsPath.snoc {adj : String → List String} {x y z : String}
    (h : DepsPath adj x y) : z ∈ adj y → DepsPath adj x z := by
  induction h with
  | single h1 => intro hz; exact .cons h1 (.single hz)
  | cons h1 _ ih => intro hz; exact .cons h1 (ih hz)

/-- Kahn's algorithm never empties a worklist containing a vendor that
lies on a kept-edge cycle. -/
theorem topoAux_cycle_none {adj : String → List String} {c : String}
    (hc : DepsPath adj c c) :
    ∀ (n : Nat) (remaining acc : List String),
    (∀ v, DepsPath adj v v → v ∉ acc) → c ∈ remaining →
    topoAux adj n remaining acc = none := by
  intro n
  induction n with
  | zero =>
    intro remaining acc hfree hcrem
    cases remaining with
    | nil => cases hcrem
    | cons r rs => simp [topoAux]
  | succ n ih =>
    intro remaining acc hfree hcrem
    cases remaining with
    | nil => cases hcrem
    | cons r rs =>
      simp only [topoAux]
      cases hf : (r :: rs).find? (topoReady adj acc) with
      | none => rfl
      | some v =>
        have hready0 : topoReady adj acc v = true := List.find?_some hf
        have hready : (adj v).all (fun d => decide (d ∈ acc)) = true := hready0
        have hready2 : ∀ d ∈ adj v, d ∈ acc := by
          intro d hd
          exact of_decide_eq_true (List.all_eq_true.mp hready d hd)
        have hvnc : ¬ DepsPath adj v v := by
          intro hvv
          cases hvv with
          | single h1 => exact hfree v (.single h1) (hready2 v h1)
          | cons h1 h2 => exact hfree _ (h2.snoc h1) (hready2 _ h1)
        apply ih
        · intro x hx hmem
          rcases List.mem_cons.mp hmem with rfl | hmem2
          · exact hvnc hx
          · exact hfree x hx hmem2
        · refine (List.mem_erase_of_ne (fun e => hvnc ?_)).mpr hcrem
          rw [← e]
          exact hc

/-- The endpoint of a kept-edge path is an installed vendor. -/
theorem DepsPath.target_mem {vendors : List String}
    {deps : String → List String} {x y : String}
    (h : DepsPath (installedDeps vendors deps) x y) : y ∈ vendors := by
  induction h with
  | single h1 => exact of_decide_eq_true (List.mem_filter.mp h1).2
  | cons _ _ ih => exact ih

/-- C3: a successful `topological_sort` emits each installed vendor
exactly once, places every declared dependency that is itself an
installed vendor before its dependent, drops edges to names that are
not installed vendors, and orders vendors with no kept edges
alphabetically; a cycle among installed vendors makes it exit fatally
with code 1. -/
theorem topological_sort_spec :
    (∀ (vendors : List String) (deps : String → List String) (out : List String),
        topological_sort vendors deps = some out → out.Perm vendors)
  ∧ (∀ (vendors : List String) (deps : String → List String) (out : List String),
        topological_sort vendors deps = some out →
        ∀ a b, b ∈ vendors → a ∈ deps b → a ∈ vendors → appearsBefore out a b)
  ∧ (∀ (vendors : List String) (deps : String → List String)
        (out : List String) (u w : String),
        topological_sort vendors deps = some out →
        installedDeps vendors deps u = [] → installedDeps vendors deps w = [] →
        (∀ x ∈ vendors, u ∉ installedDeps vendors deps x) →
        (∀ x ∈ vendors, w ∉ installedDeps vendors deps x) →
        strLt u w = true → u ∈ vendors → w ∈ vendors →
        appearsBefore out u w)
  ∧ (∀ (vendors : List String) (deps : String → List String),
        (∃ v, DepsPath (installedDeps vendors deps) v v) →
        topological_sort vendors deps = none ∧ topo_exit_code vendors deps = 1)
  ∧ (∀ (vendors : List String) (deps : String → List String),
        topological_sort vendors
            (fun v => (deps v).filter (fun d => d ∈ vendors)) =
          topological_sort vendors deps) := by
  refine ⟨?_, ?_, ?_, ?_, ?_⟩
  · intro vendors deps out h
    simp only [topological_sort] at h
    have hperm := topoAux_perm (installedDeps vendors deps) vendors.length
      (sortNames vendors) [] out h
    simp only [List.reverse_nil, List.nil_append] at hperm
    exact hperm.trans (sortNames_perm vendors)
  · intro vendors deps out h a b hb hab ha
    simp only [topological_sort] at h
    obtain ⟨A, hout, hA, hrem, _⟩ := topoAux_accClosed (installedDeps vendors deps)
      vendors.length (sortNames vendors) [] out trivial h
    have hbA : b ∈ A := hrem b ((sortNames_perm vendors).mem_iff.mpr hb)
    have hmem : a ∈ installedDeps vendors deps b :=
      List.mem_filter.mpr ⟨hab, decide_eq_true ha⟩
    rw [hout]
    exact appearsBefore_of_accClosed hA hbA hmem
  · intro vendors deps out u w h hu hw hnoin1 hnoin2 hlt humem hwmem
    simp only [topological_sort] at h
    have hle : strLe w u = false := by
      cases hsw : strLe w u with
      | false => rfl
      | true =>
        simp [strLt, hsw] at hlt
    exact topoAux_first_pick hu hle vendors.length _ _ _
      (sorted_sortNames vendors)
      ((sortNames_perm vendors).mem_iff.mpr humem)
      ((sortNames_perm vendors).mem_iff.mpr hwmem) h
  · intro vendors deps hex
    obtain ⟨v, hv⟩ := hex
    have hvm : v ∈ vendors := hv.target_mem
    have hnone : topological_sort vendors deps = none := by
      simp only [topological_sort]
      exact topoAux_cycle_none hv vendors.length _ []
        (fun v _ => List.not_mem_nil v) ((sortNames_perm vendors).mem_iff.mpr hvm)
    exact ⟨hnone, by simp [topo_exit_code, hnone]⟩
  · intro vendors deps
    have hidem : ∀ l : List String,
        List.filter (fun d => decide (d ∈ vendors))
            (List.filter (fun d => decide (d ∈ vendors)) l) =
          List.filter (fun d => decide (d ∈ vendors)) l := by
      intro l
      induction l with
      | nil => rfl
      | cons a as ih =>
        by_cases ha : a ∈ vendors
        · simp [List.filter_cons, ha, ih]
        · simp [List.filter_cons, ha, ih]
    have hadj : installedDeps vendors
        (fun v => (deps v).filter (fun d => d ∈ vendors)) =
        installedDeps vendors deps := by
      funext v
      simp only [installedDeps]
      exact hidem (deps v)
    simp only [topological_sort]
    rw [hadj]

/-- Witness for C3: the diamond dependency graph, the alphabetical
ordering of isolated vendors, and an installed two-cycle. -/
theorem topological_sort_spec_witness :
    (["d", "b", "c", "a"] : List String).Perm ["a", "b", "c", "d"] ∧
    appearsBefore ["d", "b", "c", "a"] "d" "b" ∧
    appearsBefore ["m", "q", "z"] "m" "z" ∧
    (topological_sort ["a", "b"] depsCycle2 = none ∧
      topo_exit_code ["a", "b"] depsCycle2 = 1) :=
  ⟨topological_sort_spec.1 ["a", "b", "c", "d"] depsDiamond
      ["d", "b", "c", "a"] (by decide),
   topological_sort_spec.2.1 ["a", "b", "c", "d"] depsDiamond
      ["d", "b", "c", "a"] (by decide) "d" "b" (by decide) (by decide) (by decide),
   topological_sort_spec.2.2.1 ["z", "q", "m"] (fun _ => ([] : List String))
      ["m", "q", "z"] "m" "z" (by decide) (by decide) (by decide)
      (by decide) (by decide) (by decide) (by decide) (by decide),
   topological_sort_spec.2.2.2.1 ["a", "b"] depsCycle2
      ⟨"a", @DepsPath.cons (installedDeps ["a", "b"] depsCycle2) "a" "b" "a"
        (by decide)
        (@DepsPath.single (installedDeps ["a", "b"] depsCycle2) "b" "a"
          (by decide))⟩⟩

end GitVendored
